import Mathlib

/-!
Shallow embedding of the sorted-set backed time-series engine
(`ttseries/ts/sample.py`, class `RedisSampleTimeSeries`).

A Redis sorted set is modelled as a list of (score, member) pairs kept in
ascending (score, member) order with unique members.  Scores are integers
standing for timestamps; members are the serializer's output, represented
by naturals.  Operations of the store client (ZADD, ZCARD, ZCOUNT,
ZRANGEBYSCORE, ZRANK, ZREMRANGEBYRANK, ZREMRANGEBYSCORE, DEL) are defined
below, and the engine operations `add`, `add_many`, `get`, `delete`,
`trim`, `get_slice`, `iter` are translated from the source.  Base-class
helpers whose source file is not part of the repository snapshot
(`exist_timestamp`, `length`, `validate_key`, the chunking utility) are
modelled from the specification and marked as such.
-/

namespace TTSeries

/-- The pluggable serialization codec (external collaborator): `dumps`
encodes a payload to member bytes, `loads` decodes them back.  Payloads
and encoded members are both represented by naturals. -/
structure Serializer where
  dumps : Nat → Nat
  loads : Nat → Nat

/-- Engine configuration: the codec and the `max_length` retention bound. -/
structure Engine where
  ser : Serializer
  maxLength : Nat

/-- One stored element: a (score, member) pair. -/
abbrev Elem := Int × Nat

/-- A sorted set, listed in ascending (score, member) order. -/
abbrev ZSet := List Elem

/-- The ordering the store uses on elements: by score, ties by member. -/
def keyLtb (a b : Elem) : Bool :=
  decide (a.1 < b.1) || (decide (a.1 = b.1) && decide (a.2 < b.2))

/-- The members (serialized payloads) stored in a sorted set. -/
def members (s : ZSet) : List Nat := s.map Prod.snd

/-- Store invariant: members are unique within one sorted set. -/
def MemNodup (s : ZSet) : Prop := (members s).Nodup

/-- A score-range bound: minus infinity, plus infinity, or a value. -/
inductive Bound where
  | ninf
  | pinf
  | val (x : Int)

/-- Lower-bound test: does the bound admit the score from below. -/
def Bound.leScore : Bound → Int → Bool
  | .ninf, _ => true
  | .pinf, _ => false
  | .val a, x => decide (a ≤ x)

/-- Upper-bound test: does the bound admit the score from above. -/
def Bound.scoreLe : Int → Bound → Bool
  | _, .pinf => true
  | _, .ninf => false
  | x, .val b => decide (x ≤ b)

/-- Inclusive range membership of a score. -/
def inRangeB (lo hi : Bound) (x : Int) : Bool := lo.leScore x && Bound.scoreLe x hi

/-- Insert an element at its sorted position. -/
def insertSorted (e : Elem) : ZSet → ZSet
  | [] => [e]
  | x :: xs => if keyLtb e x then e :: x :: xs else x :: insertSorted e xs

/-- Redis ZADD: if the member is already present its score is updated,
otherwise the element is inserted; members stay unique. -/
def zadd (s : ZSet) (t : Int) (m : Nat) : ZSet :=
  insertSorted (t, m) (s.filter fun x => x.2 != m)

/-- Redis ZCARD: the number of stored elements. -/
def zcard (s : ZSet) : Nat := s.length

/-- Redis ZCOUNT: number of elements with score in the inclusive range. -/
def zcount (s : ZSet) (lo hi : Bound) : Nat :=
  (s.filter fun x => inRangeB lo hi x.1).length

/-- Redis ZRANGEBYSCORE (ascending) with start offset and optional limit. -/
def zrangebyscore (s : ZSet) (lo hi : Bound) (start : Nat) (num : Option Nat) : ZSet :=
  let f := (s.filter fun x => inRangeB lo hi x.1).drop start
  match num with
  | none => f
  | some k => f.take k

/-- Redis ZREVRANGEBYSCORE (descending) with start offset and optional limit. -/
def zrevrangebyscore (s : ZSet) (lo hi : Bound) (start : Nat) (num : Option Nat) : ZSet :=
  let f := ((s.filter fun x => inRangeB lo hi x.1).reverse).drop start
  match num with
  | none => f
  | some k => f.take k

/-- Redis ZRANK: zero-based position of a member in the sorted order. -/
def zrank (s : ZSet) (m : Nat) : Option Nat := s.findIdx? fun x => x.2 == m

/-- Redis ZREMRANGEBYRANK over the rank interval [mn, mx] (the source only
uses non-negative ranks). -/
def zremrangebyrank (s : ZSet) (mn mx : Nat) : ZSet := s.take mn ++ s.drop (mx + 1)

/-- Redis ZREMRANGEBYSCORE: removes the inclusive score range and returns
the new state together with the removed count. -/
def zremrangebyscore (s : ZSet) (lo hi : Bound) : ZSet × Nat :=
  let kept := s.filter fun x => !(inRangeB lo hi x.1)
  (kept, s.length - kept.length)

/-- Modelled from the spec: the base-class series-length helper
(`self.length`; the base-class file is not in the snapshot) - the element
count of the series, ZCARD. -/
def length (s : ZSet) : Nat := zcard s

/-- Modelled from the spec: the base-class existence check
(`self.exist_timestamp`; the base-class file is not in the snapshot):
whether an element with the given timestamp as score already exists
(spec section 4.1). -/
def exist_timestamp (s : ZSet) (t : Int) : Bool :=
  decide (0 < zcount s (Bound.val t) (Bound.val t))

/-- Modelled from the spec: the base-class name check (`self.validate_key`;
the base-class file is not in the snapshot): the name must be non-empty and
must not collide with the reserved suffixes the sibling hash-backed variant
appends to its keys (":ID" and ":HASH", as seen in the repository tests). -/
def validate_key (name : String) : Bool :=
  !(name == "") && !(name.endsWith ":ID") && !(name.endsWith ":HASH")

/-- Modelled from the spec: the chunking utility (`ttseries.utils.chunks`;
the utils file is not in the snapshot): splits a sequence into consecutive
chunks of the given size, preserving order, last chunk possibly shorter. -/
def chunks {α : Type _} (n : Nat) : List α → List (List α)
  | [] => []
  | a :: as => (a :: as.take (n - 1)) :: chunks n (as.drop (n - 1))
termination_by l => l.length
decreasing_by simp only [List.length_drop, List.length_cons]; omega

/-- `add` (sample.py lines 33-47): serialize the payload, and unless an
element with this timestamp as score already exists, evict the rank-0
element when the series is exactly at `max_length`, then ZADD.  The second
component counts the remote write commands issued (ZREMRANGEBYRANK and
ZADD); the source performs no name validation here, unlike `add_many`. -/
def add (E : Engine) (name : String) (s : ZSet) (t : Int) (p : Nat) : ZSet × Nat :=
  let data := E.ser.dumps p
  if exist_timestamp s t then (s, 0)
  else if length s = E.maxLength then (zadd (zremrangebyrank s 0 0) t data, 2)
  else (zadd s t data, 1)

/-- `add_many` (sample.py lines 49-68): validate the key, chunk the input,
serialize each pair and ZADD it inside a per-chunk transaction (each chunk
applies atomically; the state after all chunks is their sequential
composition).  `_add_many_validate` is modelled from the spec (base-class
file not in the snapshot): it accepts explicit (timestamp, payload) pairs
unchanged.  An invalid name raises before any remote call. -/
def add_many (E : Engine) (name : String) (s : ZSet) (pairs : List (Int × Nat))
    (cs : Nat) : Except String ZSet :=
  if validate_key name then
    Except.ok ((chunks cs pairs).foldl
      (fun st chunk => chunk.foldl (fun st2 tp => zadd st2 tp.1 (E.ser.dumps tp.2)) st) s)
  else
    Except.error "invalid key"

/-- `get` (sample.py lines 106-118, serializer variant): ZRANGEBYSCORE with
min = max = timestamp, decode the first result if any. -/
def get (E : Engine) (s : ZSet) (t : Int) : Option Nat :=
  match zrangebyscore s (Bound.val t) (Bound.val t) 0 none with
  | [] => none
  | x :: _ => some (E.ser.loads x.2)

/-- Python truthiness of an optional numeric argument: present and nonzero. -/
def truthy : Option Int → Bool
  | none => false
  | some x => x != 0

/-- `delete` (sample.py lines 120-139).  The range branch is taken only when
at least one bound is truthy (present and nonzero, Python's `or` test);
otherwise the whole key is deleted (`client.delete` reports the number of
keys removed).  Returns the new state and the reported count. -/
def delete (s : ZSet) (start_timestamp end_timestamp : Option Int) : ZSet × Nat :=
  if truthy start_timestamp || truthy end_timestamp then
    let lo := match start_timestamp with
      | none => Bound.ninf
      | some x => Bound.val x
    let hi := match end_timestamp with
      | none => Bound.pinf
      | some x => Bound.val x
    zremrangebyscore s lo hi
  else
    ([], if s.isEmpty then 0 else 1)

/-- `trim` (sample.py lines 161-177): when `current_length > length > 0`
remove the rank interval [0, length - 1]; when `length >= current_length`
delete the whole series; otherwise do nothing. -/
def trim (s : ZSet) (len : Int) : ZSet :=
  let current_length : Int := (length s : Int)
  if current_length > len ∧ len > 0 then
    zremrangebyrank s 0 (len - 1).toNat
  else if len ≥ current_length then
    (delete s none none).1
  else
    s

/-- Decode one raw element to the yielded (timestamp, payload) form. -/
def loadPair (E : Engine) (x : Elem) : Int × Nat := (x.1, E.ser.loads x.2)

/-- The paginated branch of `get_slice` (sample.py lines 207-230): one page
per loop iteration; the next start offset is reconstructed from the rank of
the last returned element's serialized member plus one.  (The source
serializes the last yielded (timestamp, payload) pair that the consumer
sends back into the generator; with a round-tripping codec this is modelled
as the raw member of the last returned element.  Where the model keeps the
previous offset, the source would raise: an empty page makes
`yield_data[-1]` fail, and a missing rank makes `index + 1` fail.) -/
def slicePages (E : Engine) (zf : ZSet → Bound → Bound → Nat → Option Nat → ZSet)
    (s : ZSet) (lo hi : Bound) (cs : Nat) : Nat → Nat → List (List (Int × Nat))
  | 0, _ => []
  | n + 1, start =>
    let results := zf s lo hi start (some cs)
    let page := results.map (loadPair E)
    let nextStart :=
      match results.getLast? with
      | none => start
      | some last =>
        match zrank s last.2 with
        | none => start
        | some r => r + 1
    page :: slicePages E zf s lo hi cs n nextStart

/-- `get_slice` (sample.py lines 179-249, serializer variant, default
`limit = None`; the source's `limit` test is a dead `pass` statement, and
`count` is the base-class ZCOUNT helper).  Bounds default to the infinities;
when the match count exceeds the page size, `int(total / chunks_size)`
pages are produced, otherwise a single full page.  Returns the list of
yielded pages. -/
def get_slice (E : Engine) (s : ZSet) (start_timestamp end_timestamp : Option Int)
    (asc : Bool) (cs : Nat) : List (List (Int × Nat)) :=
  let zf := if asc then zrangebyscore else zrevrangebyscore
  let lo := match start_timestamp with
    | none => Bound.ninf
    | some x => Bound.val x
  let hi := match end_timestamp with
    | none => Bound.pinf
    | some x => Bound.val x
  let total := zcount s lo hi
  if cs < total then
    slicePages E zf s lo hi cs (total / cs) 0
  else
    [(zf s lo hi 0 none).map (loadPair E)]

/-- `iter` (sample.py lines 260-272): the element-scan loop only runs when
`use_numpy` is set, and inside the loop the serializer branch only yields
when `use_numpy` is not set, so the yield statement is unreachable in
either configuration. -/
def iter (E : Engine) (useNumpy : Bool) (s : ZSet) : List (Int × Nat) :=
  if useNumpy then
    s.filterMap fun x => if useNumpy then none else some (loadPair E x)
  else
    []

/-- Sequential composition of single `add` calls (the states the engine
goes through when a caller inserts a batch one item at a time). -/
def addAll (E : Engine) (name : String) (s : ZSet) (L : List (Int × Nat)) : ZSet :=
  L.foldl (fun st tp => (add E name st tp.1 tp.2).1) s

/-- Sequential composition of ZADD calls, the net effect of `add_many`. -/
def zaddPairs (E : Engine) (s : ZSet) (pairs : List (Int × Nat)) : ZSet :=
  pairs.foldl (fun st tp => zadd st tp.1 (E.ser.dumps tp.2)) s

/-- Serialize one (timestamp, payload) pair to its stored form. -/
def serPair (E : Engine) (tp : Int × Nat) : Elem := (tp.1, E.ser.dumps tp.2)

/-- Identity codec, used for concrete evaluations. -/
def idSer : Serializer := ⟨fun p => p, fun p => p⟩

/-- A sample engine: identity codec, `max_length` 10. -/
def sampleE : Engine := ⟨idSer, 10⟩

/-- A small engine: identity codec, `max_length` 1. -/
def E1 : Engine := ⟨idSer, 1⟩

/-- A small engine: identity codec, `max_length` 2. -/
def E2 : Engine := ⟨idSer, 2⟩

/-! ### Basic lemmas about the store operations -/

theorem insertSorted_perm (e : Elem) (l : ZSet) : List.Perm (insertSorted e l) (e :: l) := by
  induction l with
  | nil => rfl
  | cons x xs ih =>
    rw [insertSorted]
    by_cases h : keyLtb e x
    · rw [if_pos h]
    · rw [if_neg h]
      exact (ih.cons x).trans (List.Perm.swap e x xs)

theorem mem_insertSorted {a e : Elem} {l : ZSet} :
    a ∈ insertSorted e l ↔ a = e ∨ a ∈ l := by
  rw [(insertSorted_perm e l).mem_iff, List.mem_cons]

theorem length_insertSorted (e : Elem) (l : ZSet) :
    (insertSorted e l).length = l.length + 1 := by
  rw [(insertSorted_perm e l).length_eq, List.length_cons]

theorem insertSorted_append (e : Elem) (l : ZSet) (h : ∀ x ∈ l, x.1 < e.1) :
    insertSorted e l = l ++ [e] := by
  induction l with
  | nil => rfl
  | cons x xs ih =>
    have hx : x.1 < e.1 := h x (List.mem_cons_self x xs)
    have hb : keyLtb e x = false := by
      simp only [keyLtb, Bool.or_eq_false_iff, Bool.and_eq_false_iff,
        decide_eq_false_iff_not]
      constructor
      · omega
      · left; omega
    rw [insertSorted, hb]
    simp only [Bool.false_eq_true, if_false, List.cons_append]
    rw [ih (fun y hy => h y (List.mem_cons_of_mem x hy))]

theorem filter_bne_of_not_mem {s : ZSet} {m : Nat} (h : m ∉ members s) :
    (s.filter fun x => x.2 != m) = s := by
  apply List.filter_eq_self.mpr
  intro x hx
  simp only [bne_iff_ne, ne_eq, decide_eq_true_eq]
  intro hxm
  exact h (List.mem_map.mpr ⟨x, hx, hxm⟩)

theorem inRangeB_val_val (t x : Int) : inRangeB (Bound.val t) (Bound.val t) x = true ↔ x = t := by
  simp only [inRangeB, Bound.leScore, Bound.scoreLe, Bool.and_eq_true, decide_eq_true_eq]
  omega

theorem zremrangebyrank_zero_zero (s : ZSet) : zremrangebyrank s 0 0 = s.drop 1 := by
  simp [zremrangebyrank]

/-! ### Lemmas about `exist_timestamp` and `get` -/

theorem exist_timestamp_eq_false_iff (s : ZSet) (t : Int) :
    exist_timestamp s t = false ↔ ∀ e ∈ s, e.1 ≠ t := by
  simp only [exist_timestamp, zcount, decide_eq_false_iff_not, not_lt, Nat.le_zero,
    List.length_eq_zero, List.filter_eq_nil_iff]
  constructor
  · intro h e he het
    exact h e he (by rw [inRangeB_val_val]; exact het)
  · intro h e he hin
    exact h e he ((inRangeB_val_val t e.1).mp hin)

theorem exist_timestamp_of_mem {s : ZSet} {e : Elem} {t : Int}
    (he : e ∈ s) (ht : e.1 = t) : exist_timestamp s t = true := by
  simp only [exist_timestamp, decide_eq_true_eq, zcount, ← List.countP_eq_length_filter]
  exact List.countP_pos_iff.mpr ⟨e, he, by rw [inRangeB_val_val]; exact ht⟩

theorem filter_score_eq_nil {s : ZSet} {t : Int} (h : ∀ e ∈ s, e.1 ≠ t) :
    (s.filter fun x => inRangeB (Bound.val t) (Bound.val t) x.1) = [] := by
  apply List.filter_eq_nil_iff.mpr
  intro e he hin
  exact h e he ((inRangeB_val_val t e.1).mp hin)

theorem get_eq_none {E : Engine} {s : ZSet} {t : Int} (h : ∀ e ∈ s, e.1 ≠ t) :
    get E s t = none := by
  simp [get, zrangebyscore, filter_score_eq_nil h]

theorem get_append_singleton (E : Engine) (l : ZSet) (t : Int) (m : Nat)
    (h : ∀ e ∈ l, e.1 ≠ t) :
    get E (l ++ [(t, m)]) t = some (E.ser.loads m) := by
  have hf : ((l ++ [(t, m)]).filter fun x => inRangeB (Bound.val t) (Bound.val t) x.1)
      = [(t, m)] := by
    rw [List.filter_append, filter_score_eq_nil h]
    simp [(inRangeB_val_val t t).mpr rfl]
  simp [get, zrangebyscore, hf]

theorem get_insertSorted (E : Engine) (l : ZSet) (t : Int) (m : Nat)
    (h : ∀ e ∈ l, e.1 ≠ t) :
    get E (insertSorted (t, m) l) t = some (E.ser.loads m) := by
  have hperm := (insertSorted_perm (t, m) l).filter
    (fun x => inRangeB (Bound.val t) (Bound.val t) x.1)
  rw [List.filter_cons, filter_score_eq_nil h] at hperm
  simp only [(inRangeB_val_val t t).mpr rfl, if_true] at hperm
  have hf := List.perm_singleton.mp hperm
  simp [get, zrangebyscore, hf]

/-! ### Lemmas about `zadd` -/

theorem mem_members_zadd {s : ZSet} {m0 : Nat} (t : Int) (m : Nat)
    (h : m0 ∈ members s) : m0 ∈ members (zadd s t m) := by
  by_cases hm : m0 = m
  · subst hm
    exact List.mem_map.mpr ⟨(t, m0), mem_insertSorted.mpr (Or.inl rfl), rfl⟩
  · obtain ⟨e, he, he2⟩ := List.mem_map.mp h
    have hef : e ∈ s.filter fun x => x.2 != m :=
      List.mem_filter.mpr ⟨he, by simp [he2, hm]⟩
    exact List.mem_map.mpr ⟨e, mem_insertSorted.mpr (Or.inr hef), he2⟩

theorem memNodup_zadd {s : ZSet} (t : Int) (m : Nat) (h : MemNodup s) :
    MemNodup (zadd s t m) := by
  have hperm := (insertSorted_perm (t, m) (s.filter fun x => x.2 != m)).map Prod.snd
  simp only [MemNodup, members, zadd]
  rw [hperm.nodup_iff, List.map_cons, List.nodup_cons]
  constructor
  · intro hmem
    obtain ⟨e, he, he2⟩ := List.mem_map.mp hmem
    have := (List.mem_filter.mp he).2
    rw [he2] at this
    simp at this
  · exact h.sublist ((List.filter_sublist s).map Prod.snd)

theorem countP_bne_add_countP_beq (s : ZSet) (m : Nat) :
    s.countP (fun x => x.2 != m) + s.countP (fun x => x.2 == m) = s.length := by
  induction s with
  | nil => rfl
  | cons a tl ih =>
    simp only [List.countP_cons, List.length_cons]
    by_cases h : a.2 = m
    · simp only [h, bne_self_eq_false, beq_self_eq_true, if_true, if_false,
        Bool.false_eq_true]
      omega
    · have h1 : (a.2 != m) = true := by simp [h]
      have h2 : (a.2 == m) = false := by simp [h]
      rw [h1, h2]
      simp only [if_true, if_false, Bool.false_eq_true]
      omega

theorem countP_beq_le_one (s : ZSet) (m : Nat) (h : MemNodup s) :
    s.countP (fun x => x.2 == m) ≤ 1 := by
  have h1 : s.countP (fun x => x.2 == m) = (members s).count m := by
    rw [List.count_eq_countP, members, List.countP_map]
    rfl
  rw [h1]
  exact List.nodup_iff_count_le_one.mp h m

theorem length_le_zadd (s : ZSet) (t : Int) (m : Nat) (h : MemNodup s) :
    s.length ≤ (zadd s t m).length := by
  rw [zadd, (insertSorted_perm _ _).length_eq, List.length_cons]
  have h1 : (s.filter fun x => x.2 != m).length = s.countP (fun x => x.2 != m) :=
    (List.countP_eq_length_filter _ _).symm
  have h2 := countP_bne_add_countP_beq s m
  have h3 := countP_beq_le_one s m h
  omega

/-! ### Lemmas about `chunks`, `add_many` and `zaddPairs` -/

theorem chunks_cons {α : Type _} (n : Nat) (a : α) (as : List α) :
    chunks n (a :: as) = (a :: as.take (n - 1)) :: chunks n (as.drop (n - 1)) := by
  rw [chunks]

theorem chunks_flatten {α : Type _} (n : Nat) (l : List α) : (chunks n l).flatten = l := by
  generalize hk : l.length = k
  induction k using Nat.strong_induction_on generalizing l with
  | _ k ih =>
    match l with
    | [] => rw [chunks]; rfl
    | a :: as =>
      rw [chunks_cons, List.flatten_cons]
      have hlt : (as.drop (n - 1)).length < k := by
        rw [← hk]
        simp only [List.length_drop, List.length_cons]
        omega
      rw [ih _ hlt _ rfl]
      simp [List.take_append_drop]

theorem add_many_eq (E : Engine) (name : String) (s : ZSet)
    (pairs : List (Int × Nat)) (cs : Nat) (h : validate_key name = true) :
    add_many E name s pairs cs = Except.ok (zaddPairs E s pairs) := by
  rw [add_many, if_pos h, zaddPairs]
  rw [← List.foldl_flatten (fun st2 tp => zadd st2 tp.1 (E.ser.dumps tp.2)) s (chunks cs pairs)]
  rw [chunks_flatten]

theorem zaddPairs_props (E : Engine) (pairs : List (Int × Nat)) :
    ∀ s : ZSet, MemNodup s →
      (∀ m0 ∈ members s, m0 ∈ members (zaddPairs E s pairs)) ∧
      s.length ≤ (zaddPairs E s pairs).length ∧ MemNodup (zaddPairs E s pairs) := by
  induction pairs with
  | nil => exact fun s h => ⟨fun m0 hm => hm, Nat.le_refl _, h⟩
  | cons tp pairs ih =>
    intro s h
    have hstep : zaddPairs E s (tp :: pairs)
        = zaddPairs E (zadd s tp.1 (E.ser.dumps tp.2)) pairs := rfl
    obtain ⟨ih1, ih2, ih3⟩ := ih (zadd s tp.1 (E.ser.dumps tp.2)) (memNodup_zadd _ _ h)
    rw [hstep]
    exact ⟨fun m0 hm => ih1 m0 (mem_members_zadd _ _ hm),
      Nat.le_trans (length_le_zadd s tp.1 _ h) ih2, ih3⟩

/-- Claim C9: `add_many` never evicts: for every series (with the store's
unique-member invariant) and every input batch, every member already stored
is still stored afterwards and the length never shrinks - no `max_length`
eviction is applied on the bulk path, so the series can end up holding more
than `max_length` elements (see the witness, which lands 3 elements in a
series whose `max_length` is 1). -/
theorem C9_add_many_no_eviction (E : Engine) (name : String) (s : ZSet)
    (pairs : List (Int × Nat)) (cs : Nat)
    (hname : validate_key name = true) (hs : MemNodup s) :
    ∃ s2, add_many E name s pairs cs = Except.ok s2 ∧
      (∀ m0 ∈ members s, m0 ∈ members s2) ∧ s.length ≤ s2.length := by
  obtain ⟨h1, h2, _⟩ := zaddPairs_props E pairs s hs
  exact ⟨zaddPairs E s pairs, add_many_eq E name s pairs cs hname, h1, h2⟩

/-- Witness for C9 at a concrete over-capacity input: a bulk insert of three
pairs into an empty series with `max_length = 1` succeeds and leaves three
elements, exceeding `max_length`. -/
theorem C9_witness :
    validate_key "k" = true ∧ MemNodup ([] : ZSet) ∧
    (∃ s2, add_many E1 "k" [] [(1, 1), (2, 2), (3, 3)] 2000 = Except.ok s2 ∧
      (∀ m0 ∈ members ([] : ZSet), m0 ∈ members s2) ∧
      ([] : ZSet).length ≤ s2.length) ∧
    add_many E1 "k" [] [(1, 1), (2, 2), (3, 3)] 2000
      = Except.ok [(1, 1), (2, 2), (3, 3)] ∧
    E1.maxLength < 3 :=
  ⟨rfl, List.nodup_nil,
    C9_add_many_no_eviction E1 "k" [] [(1, 1), (2, 2), (3, 3)] 2000 rfl List.nodup_nil,
    by rw [add_many_eq E1 "k" [] [(1, 1), (2, 2), (3, 3)] 2000 rfl]; rfl, by decide⟩

/-! ### Lemmas about sequences of single `add` calls -/

theorem addAll_cons (E : Engine) (name : String) (s : ZSet) (tp : Int × Nat)
    (L : List (Int × Nat)) :
    addAll E name s (tp :: L) = addAll E name (add E name s tp.1 tp.2).1 L := rfl

theorem addAll_append (E : Engine) (name : String) (s : ZSet)
    (L1 L2 : List (Int × Nat)) :
    addAll E name s (L1 ++ L2) = addAll E name (addAll E name s L1) L2 := by
  simp [addAll, List.foldl_append]

/-- Inserting a strictly increasing run of fresh timestamps with fresh,
pairwise distinct members into a series strictly below capacity appends the
serialized pairs in order, with no eviction. -/
theorem addAll_no_evict (E : Engine) (name : String) (L : List (Int × Nat)) :
    ∀ s : ZSet,
      (∀ e ∈ s, ∀ tp ∈ L, e.1 < tp.1) →
      ((L.map Prod.fst).Pairwise (· < ·)) →
      (∀ tp ∈ L, E.ser.dumps tp.2 ∉ members s) →
      ((L.map fun tp => E.ser.dumps tp.2).Nodup) →
      s.length + L.length ≤ E.maxLength →
      addAll E name s L = s ++ L.map (serPair E) := by
  induction L with
  | nil =>
    intro s _ _ _ _ _
    simp [addAll]
  | cons tp L ih =>
    intro s h1 h2 h3 h4 h5
    rw [List.map_cons, List.pairwise_cons] at h2
    rw [List.map_cons, List.nodup_cons] at h4
    have hts : exist_timestamp s tp.1 = false :=
      (exist_timestamp_eq_false_iff s tp.1).mpr
        fun e he => ne_of_lt (h1 e he tp (List.mem_cons_self tp L))
    have hlen : ¬ length s = E.maxLength := by
      simp only [length, zcard]
      simp only [List.length_cons] at h5
      omega
    have hstep : (add E name s tp.1 tp.2).1 = s ++ [serPair E tp] := by
      rw [add]
      simp only [hts, Bool.false_eq_true, if_false, hlen]
      rw [zadd, filter_bne_of_not_mem (h3 tp (List.mem_cons_self tp L)),
        insertSorted_append (tp.1, E.ser.dumps tp.2) s
          fun x hx => h1 x hx tp (List.mem_cons_self tp L)]
      rfl
    rw [addAll_cons, hstep,
      ih (s ++ [serPair E tp])
        (fun e he tq hq => by
          rcases List.mem_append.mp he with he1 | he1
          · exact h1 e he1 tq (List.mem_cons_of_mem tp hq)
          · have : e = serPair E tp := by simpa using he1
            rw [this]
            exact h2.1 tq.1 (List.mem_map_of_mem Prod.fst hq))
        h2.2
        (fun tq hq => by
          intro hmem
          rw [members, List.map_append] at hmem
          rcases List.mem_append.mp hmem with hm | hm
          · exact h3 tq (List.mem_cons_of_mem tp hq) hm
          · have heq : E.ser.dumps tq.2 = E.ser.dumps tp.2 := by simpa [serPair] using hm
            exact h4.1 (heq ▸ List.mem_map_of_mem (fun tr => E.ser.dumps tr.2) hq))
        h4.2
        (by
          simp only [List.length_append, List.length_cons, List.length_singleton,
            List.length_nil] at h5 ⊢
          omega)]
    simp

/-- The final insert of an increasing run that starts exactly at capacity
evicts the rank-0 element and appends the new one. -/
theorem addAll_evict_last (E : Engine) (name : String) (L1 : List (Int × Nat))
    (lastp : Int × Nat)
    (hlen : L1.length = E.maxLength)
    (hinc : (((L1 ++ [lastp]).map Prod.fst).Pairwise (· < ·)))
    (hnd : (((L1 ++ [lastp]).map fun tp => E.ser.dumps tp.2).Nodup)) :
    addAll E name [] (L1 ++ [lastp])
      = (L1.map (serPair E)).drop 1 ++ [serPair E lastp] := by
  rw [List.map_append] at hinc hnd
  obtain ⟨hp1, -, hcross⟩ := List.pairwise_append.mp hinc
  obtain ⟨hnd1, -, hdisj⟩ := List.nodup_append.mp hnd
  have hlast : ∀ tp ∈ L1, tp.1 < lastp.1 := fun tp htp =>
    hcross tp.1 (List.mem_map_of_mem Prod.fst htp) lastp.1 (by simp)
  have hnotin : E.ser.dumps lastp.2 ∉ L1.map fun tp => E.ser.dumps tp.2 :=
    fun hmem => hdisj hmem (by simp)
  have hS : addAll E name [] L1 = L1.map (serPair E) := by
    rw [addAll_no_evict E name L1 [] (by simp) hp1 (by simp [members]) hnd1
      (by simp [hlen])]
    rfl
  rw [addAll_append, hS]
  show (add E name (L1.map (serPair E)) lastp.1 lastp.2).1 = _
  have hscores : ∀ e ∈ L1.map (serPair E), e.1 < lastp.1 := by
    intro e he
    obtain ⟨tp, htp, rfl⟩ := List.mem_map.mp he
    exact hlast tp htp
  have hts : exist_timestamp (L1.map (serPair E)) lastp.1 = false :=
    (exist_timestamp_eq_false_iff _ _).mpr fun e he => ne_of_lt (hscores e he)
  have hlenS : length (L1.map (serPair E)) = E.maxLength := by
    simp [length, zcard, hlen]
  rw [add]
  simp only [hts, Bool.false_eq_true, if_false]
  rw [if_pos hlenS]
  show zadd (zremrangebyrank (L1.map (serPair E)) 0 0) lastp.1 (E.ser.dumps lastp.2) = _
  rw [zremrangebyrank_zero_zero, zadd]
  have hmemdrop : E.ser.dumps lastp.2 ∉ members ((L1.map (serPair E)).drop 1) := by
    intro hmem
    obtain ⟨e, he, he2⟩ := List.mem_map.mp hmem
    obtain ⟨tp, htp, rfl⟩ := List.mem_map.mp (List.mem_of_mem_drop he)
    exact hnotin (he2 ▸ List.mem_map_of_mem (fun tr => E.ser.dumps tr.2) htp)
  rw [filter_bne_of_not_mem hmemdrop,
    insertSorted_append (lastp.1, E.ser.dumps lastp.2) ((L1.map (serPair E)).drop 1)
      fun x hx => hscores x (List.mem_of_mem_drop hx)]
  rfl

/-! ### Claims C1, C2, C4, C7, C8: evaluations of the code at failing inputs -/

/-- Claim C1: the claim fails on the code.  On a series of length 5 (scores
1..5), `trim(name, 2)` removes the rank interval [0, 1] - the 2 lowest
elements - leaving 3 elements, not the requested 2; and `trim(name, 0)` is
a no-op instead of deleting the whole series (the guard `length > 0` and
the `length >= current_length` test both fail).  Only the L >= C branch
behaves as claimed. -/
theorem C1_trim_leaves_wrong_count :
    trim [(1, 10), (2, 20), (3, 30), (4, 40), (5, 50)] 2
      = [(3, 30), (4, 40), (5, 50)] ∧
    (trim [(1, 10), (2, 20), (3, 30), (4, 40), (5, 50)] 2).length = 3 ∧
    trim [(1, 10), (2, 20), (3, 30), (4, 40), (5, 50)] 0
      = [(1, 10), (2, 20), (3, 30), (4, 40), (5, 50)] ∧
    trim [(1, 10), (2, 20), (3, 30), (4, 40), (5, 50)] 5 = [] := by
  exact ⟨by decide, by decide, by decide, by decide⟩

/-- Claim C2: the claim fails on the code.  With 3 elements matching the
range and a page size of 2, the pagination loop runs `int(3 / 2) = 1`
iteration, yielding a single page of 2 elements: the third matching element
is silently dropped, contradicting "none skipped, repeated, or silently
dropped". -/
theorem C2_get_slice_truncates :
    zcount [(1, 10), (2, 20), (3, 30)] Bound.ninf Bound.pinf = 3 ∧
    get_slice sampleE [(1, 10), (2, 20), (3, 30)] none none true 2
      = [[(1, 10), (2, 20)]] ∧
    ((get_slice sampleE [(1, 10), (2, 20), (3, 30)] none none true 2).flatten).length
      = 2 := by
  exact ⟨by decide, by decide, by decide⟩

/-- Claim C4: the claim fails on the code when 0 is a bound.  For the series
[(0, 10), (7, 20)], `delete(name, 0, 0)` should remove exactly the elements
with score in [0, 0] (that is, only (0, 10), returning count 1, which is
what ZREMRANGEBYSCORE would do); instead, Python truthiness makes
`start_timestamp or end_timestamp` false, so the whole key is deleted:
the element at score 7, outside [0, 0], is removed as well. -/
theorem C4_delete_zero_bounds :
    delete [(0, 10), (7, 20)] (some 0) (some 0) = ([], 1) ∧
    zremrangebyscore [(0, 10), (7, 20)] (Bound.val 0) (Bound.val 0)
      = ([(7, 20)], 1) ∧
    inRangeB (Bound.val 0) (Bound.val 0) 7 = false ∧
    delete [(-3, 10), (7, 20)] (some 0) none = ([], 1) := by
  exact ⟨by decide, by decide, by decide, by decide⟩

/-- Claim C7: the claim fails on the code: `iter` yields nothing on any
series in either configuration - the scan loop only runs when `use_numpy`
is set, and inside the loop the serializer branch only yields when
`use_numpy` is not set - so on the non-empty series [(1, 10)] no
(timestamp, payload) pair is ever produced. -/
theorem C7_iter_yields_nothing :
    (∀ (E : Engine) (u : Bool) (s : ZSet), iter E u s = []) ∧
    iter sampleE false [(1, 10)] = [] ∧ iter sampleE true [(1, 10)] = [] := by
  refine ⟨fun E u s => ?_, rfl, rfl⟩
  cases u with
  | false => rfl
  | true =>
    rw [iter, if_pos rfl]
    exact List.filterMap_eq_nil_iff.mpr fun a _ => rfl

/-- Claim C8: the claim fails on the code for the single-item `add`: the
source of `add` performs no name validation, so with the invalid (empty)
name the element is stored and one remote write is issued, while `add_many`
does validate and raises before any remote call. -/
theorem C8_add_skips_validation :
    validate_key "" = false ∧
    (add sampleE "" [] 1 7).1 = [(1, 7)] ∧
    (add sampleE "" [] 1 7).2 = 1 ∧
    add_many sampleE "" [] [(1, 7)] 2000 = Except.error "invalid key" := by
  exact ⟨by decide, by decide, by decide, rfl⟩

/-! ### Claims C5 and C6 -/

/-- Claim C5: duplicate-timestamp inserts are no-ops.  For every series,
timestamp T and payloads P1, P2, the second `add` at the same timestamp
leaves the series exactly as after the first `add` and issues zero remote
writes: after the first call an element with score T is present, so the
existence pre-check short-circuits the second call. -/
theorem C5_duplicate_timestamp_noop (E : Engine) (name : String) (s : ZSet)
    (t : Int) (p1 p2 : Nat) :
    add E name (add E name s t p1).1 t p2 = ((add E name s t p1).1, 0) := by
  have hex : exist_timestamp (add E name s t p1).1 t = true := by
    by_cases h : exist_timestamp s t
    · rw [add, if_pos h]
      exact h
    · have hn : exist_timestamp s t = false := by
        revert h
        cases exist_timestamp s t <;> simp
      have hmem : (t, E.ser.dumps p1) ∈ (add E name s t p1).1 := by
        rw [add]
        simp only [hn, Bool.false_eq_true, if_false]
        by_cases hl : length s = E.maxLength <;>
          simp only [hl, if_true, if_false] <;>
          exact mem_insertSorted.mpr (Or.inl rfl)
      exact exist_timestamp_of_mem hmem rfl
  rw [add, if_pos hex]

/-- Claim C6: serialize-then-deserialize round trip.  For every series, any
timestamp T not already present, and any payload P on which the codec round
trips, `get(name, T)` after `add(name, T, P)` returns P. -/
theorem C6_round_trip (E : Engine) (name : String) (s : ZSet) (t : Int) (p : Nat)
    (hfresh : exist_timestamp s t = false)
    (hrt : E.ser.loads (E.ser.dumps p) = p) :
    get E (add E name s t p).1 t = some p := by
  have hs : ∀ e ∈ s, e.1 ≠ t := (exist_timestamp_eq_false_iff s t).mp hfresh
  have key : ∀ s1 : ZSet, (∀ e ∈ s1, e ∈ s) →
      get E (zadd s1 t (E.ser.dumps p)) t = some p := by
    intro s1 hsub
    rw [zadd, get_insertSorted, hrt]
    intro e he
    exact hs e (hsub e (List.mem_of_mem_filter he))
  rw [add]
  simp only [hfresh, Bool.false_eq_true, if_false]
  by_cases hl : length s = E.maxLength
  · rw [if_pos hl]
    refine key _ fun e he => ?_
    rw [zremrangebyrank_zero_zero] at he
    exact List.mem_of_mem_drop he
  · rw [if_neg hl]
    exact key s fun e he => he

/-- Witness for C6 at a concrete input: timestamp 5 is absent from the empty
series, the identity codec round trips on payload 7, and `get` after `add`
returns 7. -/
theorem C6_witness :
    exist_timestamp ([] : ZSet) 5 = false ∧
    sampleE.ser.loads (sampleE.ser.dumps 7) = 7 ∧
    get sampleE (add sampleE "k" [] 5 7).1 5 = some 7 :=
  ⟨rfl, rfl, C6_round_trip sampleE "k" [] 5 7 rfl rfl⟩

/-! ### Claim C10 -/

/-- Claim C10 counterexample: the claim as stated is false.  With
`max_length = 1` and the over-capacity series [(1, 10), (2, 20)], an `add`
at the fresh timestamp 3 whose payload serializes to the already-stored
member 10 does not strictly increase the length: ZADD moves the existing
member to the new score, so the length stays 2. -/
theorem C10_counterexample :
    E1.maxLength < ([(1, 10), (2, 20)] : ZSet).length ∧
    exist_timestamp [(1, 10), (2, 20)] 3 = false ∧
    (add E1 "k" [(1, 10), (2, 20)] 3 10).1 = [(2, 20), (3, 10)] ∧
    ¬ ([(1, 10), (2, 20)] : ZSet).length
        < (add E1 "k" [(1, 10), (2, 20)] 3 10).1.length := by
  exact ⟨by decide, by decide, by decide, by decide⟩

/-- Claim C10 (amended): `add` evicts only when the length equals
`max_length` exactly.  From any over-capacity series (length strictly above
`max_length`), an `add` with a not-yet-present timestamp whose serialized
payload is also not yet present performs no eviction - the new state is
just the sorted insertion of the new element, every old element survives,
exactly one remote write (the ZADD) is issued - and the length strictly
increases, so single inserts never restore the at-most-max_length bound. -/
theorem C10_over_capacity_no_eviction (E : Engine) (name : String) (s : ZSet)
    (t : Int) (p : Nat)
    (hover : E.maxLength < s.length)
    (hts : exist_timestamp s t = false)
    (hm : E.ser.dumps p ∉ members s) :
    (add E name s t p).1 = insertSorted (t, E.ser.dumps p) s ∧
    (add E name s t p).1.length = s.length + 1 ∧
    (∀ e ∈ s, e ∈ (add E name s t p).1) ∧
    (add E name s t p).2 = 1 := by
  have hlen : ¬ length s = E.maxLength := by
    simp only [length, zcard]
    omega
  have hadd : add E name s t p = (insertSorted (t, E.ser.dumps p) s, 1) := by
    rw [add]
    simp only [hts, Bool.false_eq_true, if_false, hlen]
    rw [zadd, filter_bne_of_not_mem hm]
  rw [hadd]
  exact ⟨rfl, length_insertSorted _ s,
    fun e he => mem_insertSorted.mpr (Or.inr he), rfl⟩

/-! ### Claim C3 -/

/-- Claim C3 counterexample: the claim as stated (over every insertion
order) is false.  With `max_length = 1`, inserting timestamp 10 and then
timestamp 5 (2 = N + 1 distinct timestamps, distinct payloads) leaves one
element, but it is the one inserted with the SMALLEST timestamp: `get` at
the smallest timestamp 5 returns its payload instead of no result, and
`get` at the largest timestamp 10 returns none instead of payload 100. -/
theorem C3_counterexample :
    addAll E1 "k" [] [(10, 100), (5, 200)] = [(5, 200)] ∧
    get E1 (addAll E1 "k" [] [(10, 100), (5, 200)]) 5 = some 200 ∧
    get E1 (addAll E1 "k" [] [(10, 100), (5, 200)]) 10 = none := by
  exact ⟨by decide, by decide, by decide⟩

/-- Claim C3 (amended): the capacity invariant holds when the N + 1 adds
are performed in increasing timestamp order.  For a round-tripping codec,
N + 1 single adds of strictly increasing timestamps with pairwise distinct
payloads (written first :: mid ++ [lastp]) into an empty series with
`max_length = N` leave exactly N elements; `get` at the first (smallest)
timestamp returns no result and `get` at the last (largest) timestamp
returns the payload inserted there. -/
theorem C3_capacity_invariant (E : Engine) (name : String)
    (first lastp : Int × Nat) (mid : List (Int × Nat))
    (hrt : ∀ q, E.ser.loads (E.ser.dumps q) = q)
    (hlen : (first :: (mid ++ [lastp])).length = E.maxLength + 1)
    (hinc : ((first :: (mid ++ [lastp])).map Prod.fst).Pairwise (· < ·))
    (hnd : ((first :: (mid ++ [lastp])).map Prod.snd).Nodup) :
    (addAll E name [] (first :: (mid ++ [lastp]))).length = E.maxLength ∧
    get E (addAll E name [] (first :: (mid ++ [lastp]))) first.1 = none ∧
    get E (addAll E name [] (first :: (mid ++ [lastp]))) lastp.1 = some lastp.2 := by
  have hinj : Function.Injective E.ser.dumps := Function.LeftInverse.injective hrt
  have hndd : ((first :: (mid ++ [lastp])).map fun tp => E.ser.dumps tp.2).Nodup := by
    rw [show (fun tp : Int × Nat => E.ser.dumps tp.2)
        = (E.ser.dumps ∘ Prod.snd) from rfl, ← List.map_map]
    exact hnd.map hinj
  have hL1len : (first :: mid).length = E.maxLength := by
    simp only [List.length_cons, List.length_append, List.length_singleton,
      List.length_nil] at hlen ⊢
    omega
  have hfinal : addAll E name [] (first :: (mid ++ [lastp]))
      = mid.map (serPair E) ++ [serPair E lastp] :=
    addAll_evict_last E name (first :: mid) lastp hL1len hinc hndd
  rw [hfinal]
  refine ⟨?_, ?_, ?_⟩
  · simp only [List.length_append, List.length_map, List.length_singleton]
    simp only [List.length_cons] at hL1len
    omega
  · rw [List.map_cons, List.pairwise_cons] at hinc
    apply get_eq_none
    intro e he
    rcases List.mem_append.mp he with he1 | he1
    · obtain ⟨tp, htp, rfl⟩ := List.mem_map.mp he1
      exact (hinc.1 tp.1
        (List.mem_map_of_mem Prod.fst (List.mem_append_left _ htp))).ne'
    · have he2 : e = serPair E lastp := by simpa using he1
      rw [he2]
      exact (hinc.1 lastp.1
        (List.mem_map_of_mem Prod.fst (List.mem_append_right _ (by simp)))).ne'
  · have htail : ((mid ++ [lastp]).map Prod.fst).Pairwise (· < ·) := by
      rw [List.map_cons, List.pairwise_cons] at hinc
      exact hinc.2
    rw [List.map_append, List.pairwise_append] at htail
    have h := get_append_singleton E (mid.map (serPair E)) lastp.1 (E.ser.dumps lastp.2)
      (fun e he => by
        obtain ⟨tp, htp, rfl⟩ := List.mem_map.mp he
        exact (htail.2.2 tp.1 (List.mem_map_of_mem Prod.fst htp) lastp.1 (by simp)).ne)
    rw [hrt lastp.2] at h
    exact h

/-- Witness for C3 at the concrete scenario: `max_length = 2`, three adds
at timestamps 0, 1, 2 with payloads 5, 6, 7: two elements remain, `get` at
0 returns none and `get` at 2 returns 7. -/
theorem C3_witness :
    (∀ q, E2.ser.loads (E2.ser.dumps q) = q) ∧
    ([(0, 5), (1, 6), (2, 7)] : List (Int × Nat)).length = E2.maxLength + 1 ∧
    (([(0, 5), (1, 6), (2, 7)] : List (Int × Nat)).map Prod.fst).Pairwise (· < ·) ∧
    (([(0, 5), (1, 6), (2, 7)] : List (Int × Nat)).map Prod.snd).Nodup ∧
    ((addAll E2 "k" [] [(0, 5), (1, 6), (2, 7)]).length = E2.maxLength ∧
      get E2 (addAll E2 "k" [] [(0, 5), (1, 6), (2, 7)]) 0 = none ∧
      get E2 (addAll E2 "k" [] [(0, 5), (1, 6), (2, 7)]) 2 = some 7) :=
  ⟨fun q => rfl, rfl, by decide, by decide,
    C3_capacity_invariant E2 "k" (0, 5) (2, 7) [(1, 6)]
      (fun q => rfl) rfl (by decide) (by decide)⟩

/-- Witness for C10 at a concrete input: `max_length = 1`, the series
[(1, 10), (2, 20)] is over capacity, timestamp 3 and member 30 are fresh,
and the `add` inserts without evicting. -/
theorem C10_witness :
    E1.maxLength < ([(1, 10), (2, 20)] : ZSet).length ∧
    exist_timestamp [(1, 10), (2, 20)] 3 = false ∧
    E1.ser.dumps 30 ∉ members [(1, 10), (2, 20)] ∧
    ((add E1 "k" [(1, 10), (2, 20)] 3 30).1
        = insertSorted (3, E1.ser.dumps 30) [(1, 10), (2, 20)] ∧
      (add E1 "k" [(1, 10), (2, 20)] 3 30).1.length
        = ([(1, 10), (2, 20)] : ZSet).length + 1 ∧
      (∀ e ∈ ([(1, 10), (2, 20)] : ZSet), e ∈ (add E1 "k" [(1, 10), (2, 20)] 3 30).1) ∧
      (add E1 "k" [(1, 10), (2, 20)] 3 30).2 = 1) :=
  ⟨by decide, by decide, by decide,
    C10_over_capacity_no_eviction E1 "k" [(1, 10), (2, 20)] 3 30
      (by decide) (by decide) (by decide)⟩

end TTSeries
